import Mathlib

/-!
Verification of the discrete Fréchet distance core of the RP2040 feather
oscilloscope firmware (file frechet_space.ino).

Shallow embedding conventions:
- C float samples, distances and DP-table cells are modelled as rationals
  (the core only subtracts, takes absolute values and compares, so the
  algebraic structure of the recurrence is preserved exactly).
- Curves are total functions from natural-number sample index to value,
  mirroring the C arrays curve1 and curve2; only indices below the active
  window are ever read.
- The statically allocated memo table dpTable is modelled as a function
  from an index pair to a value, threaded explicitly through the
  memoized evaluation; the sentinel -1.0 and the membership test
  dpTable[i][j] >= 0 are kept as in the source.
- C integer arithmetic on ring-buffer indices is modelled on Z, with the
  C remainder operator (truncation toward zero) modelled as Int.tmod.
-/

namespace FrechetSpace

/-- Configuration constant NUM_CHANNELS = 4 from frechet_space.ino line 8. -/
def NUM_CHANNELS : ℕ := 4

/-- Configuration constant HISTORY_SIZE = 50 from frechet_space.ino line 10. -/
def HISTORY_SIZE : ℕ := 50

/-- Configuration constant FRECHET_WINDOW = 20 from frechet_space.ino line 11. -/
def FRECHET_WINDOW : ℕ := 20

/-- Pointwise distance, from euclideanDistance (line 102): abs(a - b). -/
def euclideanDistance (a b : ℚ) : ℚ := |a - b|

/-- Pure value of the recursive DP recurrence frechetDP (lines 133-155),
with the memo table abstracted away (memoization only prunes repeated
subcalls; the memoized evaluator frechetMemo below is proved to agree).
Indices are naturals: the source's i < 0 and j < 0 guard is unreachable
from any call with nonnegative indices, since every recursive call keeps
both indices nonnegative. -/
def frechetDP (A B : ℕ → ℚ) : ℕ → ℕ → ℚ
  | 0, 0 => euclideanDistance (A 0) (B 0)
  | i+1, 0 => max (frechetDP A B i 0) (euclideanDistance (A (i+1)) (B 0))
  | 0, j+1 => max (frechetDP A B 0 j) (euclideanDistance (A 0) (B (j+1)))
  | i+1, j+1 =>
      max (min (frechetDP A B i (j+1))
            (min (frechetDP A B i j) (frechetDP A B (i+1) j)))
        (euclideanDistance (A (i+1)) (B (j+1)))

/-- Modelled from the spec (section 4.2): the table F with
F(0,0) = d(A[0],B[0]), F(i,0) = max(F(i-1,0), d(A[i],B[0])),
F(0,j) = max(F(0,j-1), d(A[0],B[j])), and
F(i,j) = max(min(F(i-1,j), F(i-1,j-1), F(i,j-1)), d(A[i],B[j])),
with d(x,y) = the absolute difference.  This is the refinement target the
engine is compared against; the three-way min is grouped left-to-right as
written in the spec. -/
def specTable (A B : ℕ → ℚ) : ℕ → ℕ → ℚ
  | 0, 0 => |A 0 - B 0|
  | i+1, 0 => max (specTable A B i 0) |A (i+1) - B 0|
  | 0, j+1 => max (specTable A B 0 j) |A 0 - B (j+1)|
  | i+1, j+1 =>
      max (min (min (specTable A B i (j+1)) (specTable A B i j))
            (specTable A B (i+1) j))
        |A (i+1) - B (j+1)|

/-- Fuel-indexed evaluator for the frechetDP recursion: every recursive
call of the source spends one unit of fuel, and exhausted fuel yields
none.  Used to state that the recursion depth is bounded (termination). -/
def frechetFuel (A B : ℕ → ℚ) : ℕ → ℕ → ℕ → Option ℚ
  | 0, _, _ => none
  | _+1, 0, 0 => some (euclideanDistance (A 0) (B 0))
  | fuel+1, i+1, 0 =>
      (frechetFuel A B fuel i 0).map
        (fun r => max r (euclideanDistance (A (i+1)) (B 0)))
  | fuel+1, 0, j+1 =>
      (frechetFuel A B fuel 0 j).map
        (fun r => max r (euclideanDistance (A 0) (B (j+1))))
  | fuel+1, i+1, j+1 =>
      match frechetFuel A B fuel i (j+1), frechetFuel A B fuel i j,
          frechetFuel A B fuel (i+1) j with
      | some o1, some o2, some o3 =>
          some (max (min o1 (min o2 o3))
            (euclideanDistance (A (i+1)) (B (j+1))))
      | _, _, _ => none

/-- Table write dpTable[p][q] = v. -/
def updTable (tbl : ℕ → ℕ → ℚ) (p q : ℕ) (v : ℚ) : ℕ → ℕ → ℚ :=
  fun a b => if a = p ∧ b = q then v else tbl a b

/-- The reset loop of discreteFrechetDistance (lines 122-126): every cell
of the active W-by-W region is set to the unset sentinel -1.0; cells
outside the region keep whatever a previous invocation left there. -/
def resetTable (tbl : ℕ → ℕ → ℚ) (W : ℕ) : ℕ → ℕ → ℚ :=
  fun p q => if p < W ∧ q < W then -1 else tbl p q

/-- Memoized evaluator frechetDP (lines 133-155) with the shared table
dpTable threaded explicitly: a cell holding a value >= 0 is returned
directly (line 135); otherwise the cell is computed, stored and
returned.  The three subcalls of the main recurrence are evaluated in the
source's order option1, option2, option3, each one on the table produced
by the previous one. -/
def frechetMemo (A B : ℕ → ℚ) : ℕ → ℕ → (ℕ → ℕ → ℚ) → ℚ × (ℕ → ℕ → ℚ)
  | 0, 0, tbl =>
      if 0 ≤ tbl 0 0 then (tbl 0 0, tbl)
      else
        let v := euclideanDistance (A 0) (B 0)
        (v, updTable tbl 0 0 v)
  | i+1, 0, tbl =>
      if 0 ≤ tbl (i+1) 0 then (tbl (i+1) 0, tbl)
      else
        let r := frechetMemo A B i 0 tbl
        let v := max r.1 (euclideanDistance (A (i+1)) (B 0))
        (v, updTable r.2 (i+1) 0 v)
  | 0, j+1, tbl =>
      if 0 ≤ tbl 0 (j+1) then (tbl 0 (j+1), tbl)
      else
        let r := frechetMemo A B 0 j tbl
        let v := max r.1 (euclideanDistance (A 0) (B (j+1)))
        (v, updTable r.2 0 (j+1) v)
  | i+1, j+1, tbl =>
      if 0 ≤ tbl (i+1) (j+1) then (tbl (i+1) (j+1), tbl)
      else
        let r1 := frechetMemo A B i (j+1) tbl
        let r2 := frechetMemo A B i j r1.2
        let r3 := frechetMemo A B (i+1) j r2.2
        let v := max (min r1.1 (min r2.1 r3.1))
          (euclideanDistance (A (i+1)) (B (j+1)))
        (v, updTable r3.2 (i+1) (j+1) v)

/-- The engine discreteFrechetDistance (lines 108-130) after curve
extraction: reset the active W-by-W region of the table it was handed,
then evaluate the memoized recurrence at (W-1, W-1). -/
def discreteFrechetMemo (A B : ℕ → ℚ) (W : ℕ) (tbl : ℕ → ℕ → ℚ) : ℚ :=
  (frechetMemo A B (W - 1) (W - 1) (resetTable tbl W)).1

/-- The engine-side clamp of discreteFrechetDistance line 113:
actualWindow = min(windowSize, min(FRECHET_WINDOW, HISTORY_SIZE)). -/
def actualWindow (windowSize : ℕ) : ℕ :=
  min windowSize (min FRECHET_WINDOW HISTORY_SIZE)

/-- The orchestrator-side window selection of
calculateDiscreteFrechetDistances line 159,
window = min(FRECHET_WINDOW, min(20, dataIndex + 1)), with the requested
window length (the constant FRECHET_WINDOW in the source) and the sample
count dataIndex + 1 exposed as parameters. -/
def orchestratorWindow (requestedW samplesCount : ℕ) : ℕ :=
  min requestedW (min 20 samplesCount)

/-- The window length the engine actually uses for a distance
computation driven by the orchestrator: the orchestrator clamp followed
by the engine clamp. -/
def effectiveWindow (requestedW samplesCount : ℕ) : ℕ :=
  actualWindow (orchestratorWindow requestedW samplesCount)

/-- Orchestrator calculateDiscreteFrechetDistances (lines 158-172),
parametric in the distance engine so that non-invocation of the engine is
expressible: given the current dataIndex, produce the frechetDistances
array (entries 0 .. NUM_CHANNELS-1).  If the window is below 3 every
entry is 0.0 and the engine is not consulted; otherwise entry ch for
ch < NUM_CHANNELS - 1 is engine(ch, ch+1, window) and the last entry is
the 0.0 sentinel. -/
def calcDistances (engine : ℕ → ℕ → ℕ → ℚ) (dIdx : ℕ) : ℕ → ℚ :=
  let window := min FRECHET_WINDOW (min 20 (dIdx + 1))
  if window < 3 then fun _ => 0
  else fun ch => if ch + 1 < NUM_CHANNELS then engine ch (ch + 1) window else 0

/-- The per-tick cursor update of loop line 67:
dataIndex = (dataIndex + 1) % HISTORY_SIZE. -/
def dataIndexStep (d : ℕ) : ℕ := (d + 1) % HISTORY_SIZE

/-- Value of dataIndex while tick t is being processed (ticks are
0-based; the increment happens at the end of each tick, so tick t sees
the cursor after t increments from 0). -/
def dataIndexAtTick (t : ℕ) : ℕ := dataIndexStep^[t] 0

/-- The sample count the orchestrator uses on tick t: dataIndex + 1
(line 159). -/
def sampleCountAtTick (t : ℕ) : ℕ := dataIndexAtTick t + 1

/-- The orchestrator's window on tick t (line 159). -/
def windowAtTick (t : ℕ) : ℕ :=
  min FRECHET_WINDOW (min 20 (sampleCountAtTick t))

/-- Contents of one channel's ring buffer after the writes of ticks
0 .. t: position p holds the sample of the most recent tick congruent to
p modulo HISTORY_SIZE, and 0.0 (the setup initialization, lines 32-38)
where no tick has written yet.  Mirrors sampleChannels line 78,
channelData[ch][dataIndex] = sample, with dataIndex = t % HISTORY_SIZE
on tick t. -/
def channelBuffer (stream : ℕ → ℚ) : ℕ → ℕ → ℚ
  | 0 => fun p => if 0 % HISTORY_SIZE = p then stream 0 else 0
  | t+1 => fun p =>
      if (t+1) % HISTORY_SIZE = p then stream (t+1) else channelBuffer stream t p

/-- The ring-buffer index of discreteFrechetDistance line 116,
idx = (dataIndex - actualWindow + 1 + i + HISTORY_SIZE) % HISTORY_SIZE,
computed in C int arithmetic: subtraction on Z and the C remainder
(truncation toward zero, Int.tmod). -/
def extractIdx (dIdx W i : ℕ) : ℤ :=
  Int.tmod ((dIdx : ℤ) - (W : ℤ) + 1 + (i : ℤ) + (HISTORY_SIZE : ℤ))
    (HISTORY_SIZE : ℤ)

/-- Element i of the curve extracted on tick t with effective window W
(lines 115-119): the ring-buffer cell at extractIdx. -/
def extractedCurve (stream : ℕ → ℚ) (t W i : ℕ) : ℚ :=
  channelBuffer stream t (extractIdx (t % HISTORY_SIZE) W i).toNat

/-- Memo-table invariant on the active W-by-W region: every cell is
either still unset (negative) or holds the pure DP value of its index
pair. -/
def memoInv (A B : ℕ → ℚ) (W : ℕ) (tbl : ℕ → ℕ → ℚ) : Prop :=
  ∀ p q, p < W → q < W → tbl p q < 0 ∨ tbl p q = frechetDP A B p q

/-! Helper lemmas about the pure recurrence. -/

theorem euclideanDistance_comm (a b : ℚ) :
    euclideanDistance a b = euclideanDistance b a :=
  abs_sub_comm a b

theorem euclideanDistance_self (a : ℚ) : euclideanDistance a a = 0 := by
  simp [euclideanDistance]

theorem min_rotate (a b c : ℚ) : min a (min b c) = min c (min b a) := by
  rw [min_comm b c, min_left_comm, min_comm a b]

/-- The source recurrence agrees with the table of spec section 4.2 at
every index pair (the two differ only in the association order of the
three-way min). -/
theorem frechetDP_eq_specTable (A B : ℕ → ℚ) :
    ∀ i j, frechetDP A B i j = specTable A B i j := by
  have key : ∀ n i j, i + j ≤ n → frechetDP A B i j = specTable A B i j := by
    intro n
    induction n with
    | zero =>
      intro i j h
      have hi : i = 0 := by omega
      have hj : j = 0 := by omega
      subst hi; subst hj
      simp [frechetDP, specTable, euclideanDistance]
    | succ n ih =>
      intro i j h
      cases i with
      | zero =>
        cases j with
        | zero => simp [frechetDP, specTable, euclideanDistance]
        | succ j =>
          have h1 := ih 0 j (by omega)
          simp [frechetDP, specTable, euclideanDistance, h1]
      | succ i =>
        cases j with
        | zero =>
          have h1 := ih i 0 (by omega)
          simp [frechetDP, specTable, euclideanDistance, h1]
        | succ j =>
          have h1 := ih i (j+1) (by omega)
          have h2 := ih i j (by omega)
          have h3 := ih (i+1) j (by omega)
          simp [frechetDP, specTable, euclideanDistance, h1, h2, h3, min_assoc]
  intro i j
  exact key (i + j) i j le_rfl

/-- The recurrence is symmetric: swapping the curves transposes the
table. -/
theorem frechetDP_symm (A B : ℕ → ℚ) :
    ∀ i j, frechetDP A B i j = frechetDP B A j i := by
  have key : ∀ n i j, i + j ≤ n → frechetDP A B i j = frechetDP B A j i := by
    intro n
    induction n with
    | zero =>
      intro i j h
      have hi : i = 0 := by omega
      have hj : j = 0 := by omega
      subst hi; subst hj
      simp [frechetDP, euclideanDistance_comm (A 0) (B 0)]
    | succ n ih =>
      intro i j h
      cases i with
      | zero =>
        cases j with
        | zero => simp [frechetDP, euclideanDistance_comm (A 0) (B 0)]
        | succ j =>
          have h1 := ih 0 j (by omega)
          simp [frechetDP, h1, euclideanDistance_comm (A 0) (B (j+1))]
      | succ i =>
        cases j with
        | zero =>
          have h1 := ih i 0 (by omega)
          simp [frechetDP, h1, euclideanDistance_comm (A (i+1)) (B 0)]
        | succ j =>
          have h1 := ih i (j+1) (by omega)
          have h2 := ih i j (by omega)
          have h3 := ih (i+1) j (by omega)
          simp only [frechetDP, h1, h2, h3,
            euclideanDistance_comm (A (i+1)) (B (j+1))]
          rw [min_rotate]
  intro i j
  exact key (i + j) i j le_rfl

/-- Diagonal cells of the self-distance table vanish. -/
theorem frechetDP_diag (A : ℕ → ℚ) : ∀ n, frechetDP A A n n = 0 := by
  intro n
  induction n with
  | zero => simp [frechetDP, euclideanDistance_self]
  | succ n ih =>
    simp only [frechetDP, ih, euclideanDistance_self]
    exact max_eq_right (le_trans (min_le_right _ _) (min_le_left _ _))

/-- Fuel bound: with more than i + j units of fuel the fuel-indexed
evaluator completes and returns the pure DP value.  Every recursive call
of the source strictly decreases i + j, so recursion depth is bounded
and the evaluation is total on its stated domain. -/
theorem frechetFuel_eq (A B : ℕ → ℚ) :
    ∀ fuel i j, i + j < fuel →
      frechetFuel A B fuel i j = some (frechetDP A B i j) := by
  intro fuel
  induction fuel with
  | zero => intro i j h; omega
  | succ n ih =>
    intro i j h
    cases i with
    | zero =>
      cases j with
      | zero => simp [frechetFuel, frechetDP]
      | succ j =>
        have h0 := ih 0 j (by omega)
        simp [frechetFuel, h0, frechetDP]
    | succ i =>
      cases j with
      | zero =>
        have h0 := ih i 0 (by omega)
        simp [frechetFuel, h0, frechetDP]
      | succ j =>
        have h1 := ih i (j+1) (by omega)
        have h2 := ih i j (by omega)
        have h3 := ih (i+1) j (by omega)
        simp [frechetFuel, h1, h2, h3, frechetDP]

/-- Storing the pure DP value of a cell preserves the memo-table
invariant. -/
theorem memoInv_upd (A B : ℕ → ℚ) (W : ℕ) (tbl : ℕ → ℕ → ℚ) (p q : ℕ)
    (hinv : memoInv A B W tbl) :
    memoInv A B W (updTable tbl p q (frechetDP A B p q)) := by
  intro a b ha hb
  by_cases h : a = p ∧ b = q
  · obtain ⟨rfl, rfl⟩ := h
    right
    simp [updTable]
  · unfold updTable
    rw [if_neg h]
    exact hinv a b ha hb

/-- Memoization correctness: on a table satisfying the region invariant,
the memoized evaluator returns the pure DP value and leaves the
invariant intact (every cell it stores is a genuine DP value). -/
theorem frechetMemo_spec (A B : ℕ → ℚ) (W : ℕ) :
    ∀ n i j tbl, i + j ≤ n → i < W → j < W → memoInv A B W tbl →
      (frechetMemo A B i j tbl).1 = frechetDP A B i j ∧
        memoInv A B W (frechetMemo A B i j tbl).2 := by
  intro n
  induction n with
  | zero =>
    intro i j tbl h hiW hjW hinv
    have hi : i = 0 := by omega
    have hj : j = 0 := by omega
    subst hi; subst hj
    by_cases hmem : 0 ≤ tbl 0 0
    · have := hinv 0 0 hiW hjW
      simp only [frechetMemo, if_pos hmem]
      refine ⟨?_, hinv⟩
      rcases this with hneg | heq
      · exact absurd hmem (not_le.mpr hneg)
      · exact heq
    · simp only [frechetMemo, if_neg hmem]
      constructor
      · simp [frechetDP]
      · have hv : euclideanDistance (A 0) (B 0) = frechetDP A B 0 0 := by
          simp [frechetDP]
        rw [hv]
        exact memoInv_upd A B W tbl 0 0 hinv
  | succ n ih =>
    intro i j tbl h hiW hjW hinv
    cases i with
    | zero =>
      cases j with
      | zero =>
        by_cases hmem : 0 ≤ tbl 0 0
        · have := hinv 0 0 hiW hjW
          simp only [frechetMemo, if_pos hmem]
          refine ⟨?_, hinv⟩
          rcases this with hneg | heq
          · exact absurd hmem (not_le.mpr hneg)
          · exact heq
        · simp only [frechetMemo, if_neg hmem]
          constructor
          · simp [frechetDP]
          · have hv : euclideanDistance (A 0) (B 0) = frechetDP A B 0 0 := by
              simp [frechetDP]
            rw [hv]
            exact memoInv_upd A B W tbl 0 0 hinv
      | succ j =>
        by_cases hmem : 0 ≤ tbl 0 (j+1)
        · have := hinv 0 (j+1) hiW hjW
          simp only [frechetMemo, if_pos hmem]
          refine ⟨?_, hinv⟩
          rcases this with hneg | heq
          · exact absurd hmem (not_le.mpr hneg)
          · exact heq
        · have H := ih 0 j tbl (by omega) hiW (by omega) hinv
          simp only [frechetMemo, if_neg hmem]
          constructor
          · rw [H.1]
            simp [frechetDP]
          · have hv : max (frechetMemo A B 0 j tbl).1
                (euclideanDistance (A 0) (B (j+1))) = frechetDP A B 0 (j+1) := by
              rw [H.1]
              simp [frechetDP]
            rw [hv]
            exact memoInv_upd A B W _ 0 (j+1) H.2
    | succ i =>
      cases j with
      | zero =>
        by_cases hmem : 0 ≤ tbl (i+1) 0
        · have := hinv (i+1) 0 hiW hjW
          simp only [frechetMemo, if_pos hmem]
          refine ⟨?_, hinv⟩
          rcases this with hneg | heq
          · exact absurd hmem (not_le.mpr hneg)
          · exact heq
        · have H := ih i 0 tbl (by omega) (by omega) hjW hinv
          simp only [frechetMemo, if_neg hmem]
          constructor
          · rw [H.1]
            simp [frechetDP]
          · have hv : max (frechetMemo A B i 0 tbl).1
                (euclideanDistance (A (i+1)) (B 0)) = frechetDP A B (i+1) 0 := by
              rw [H.1]
              simp [frechetDP]
            rw [hv]
            exact memoInv_upd A B W _ (i+1) 0 H.2
      | succ j =>
        by_cases hmem : 0 ≤ tbl (i+1) (j+1)
        · have := hinv (i+1) (j+1) hiW hjW
          simp only [frechetMemo, if_pos hmem]
          refine ⟨?_, hinv⟩
          rcases this with hneg | heq
          · exact absurd hmem (not_le.mpr hneg)
          · exact heq
        · have H1 := ih i (j+1) tbl (by omega) (by omega) hjW hinv
          have H2 := ih i j (frechetMemo A B i (j+1) tbl).2 (by omega)
            (by omega) (by omega) H1.2
          have H3 := ih (i+1) j
            (frechetMemo A B i j (frechetMemo A B i (j+1) tbl).2).2 (by omega)
            hiW (by omega) H2.2
          simp only [frechetMemo, if_neg hmem]
          constructor
          · rw [H1.1, H2.1, H3.1]
            simp [frechetDP]
          · have hv : max (min (frechetMemo A B i (j+1) tbl).1
                (min (frechetMemo A B i j (frechetMemo A B i (j+1) tbl).2).1
                  (frechetMemo A B (i+1) j
                    (frechetMemo A B i j (frechetMemo A B i (j+1) tbl).2).2).1))
                (euclideanDistance (A (i+1)) (B (j+1))) =
                frechetDP A B (i+1) (j+1) := by
              rw [H1.1, H2.1, H3.1]
              simp [frechetDP]
            rw [hv]
            exact memoInv_upd A B W _ (i+1) (j+1) H3.2

/-- The reset region satisfies the memo-table invariant: every active
cell is the -1.0 sentinel. -/
theorem memoInv_resetTable (A B : ℕ → ℚ) (W : ℕ) (tbl : ℕ → ℕ → ℚ) :
    memoInv A B W (resetTable tbl W) := by
  intro p q hp hq
  left
  simp [resetTable, hp, hq]

/-- The memoized engine run on a freshly reset region computes the pure
DP value at (W-1, W-1), whatever the previous table contents were. -/
theorem discreteFrechetMemo_eq_pure (A B : ℕ → ℚ) (W : ℕ) (tbl : ℕ → ℕ → ℚ)
    (hW : 1 ≤ W) :
    discreteFrechetMemo A B W tbl = frechetDP A B (W - 1) (W - 1) :=
  (frechetMemo_spec A B W ((W - 1) + (W - 1)) (W - 1) (W - 1)
    (resetTable tbl W) le_rfl (by omega) (by omega)
    (memoInv_resetTable A B W tbl)).1

/-- A ring-buffer cell read within HISTORY_SIZE ticks of its write still
holds the written sample: position tp % HISTORY_SIZE holds stream tp as
long as at most HISTORY_SIZE - 1 further ticks have elapsed. -/
theorem channelBuffer_recent (stream : ℕ → ℚ) :
    ∀ t tp, tp ≤ t → t - tp < HISTORY_SIZE →
      channelBuffer stream t (tp % HISTORY_SIZE) = stream tp := by
  have h50 : HISTORY_SIZE = 50 := rfl
  intro t
  induction t with
  | zero =>
    intro tp h1 h2
    have htp : tp = 0 := by omega
    subst htp
    simp [channelBuffer]
  | succ t ih =>
    intro tp h1 h2
    by_cases he : tp = t + 1
    · subst he
      simp [channelBuffer]
    · have htp : tp ≤ t := by omega
      have hne : ¬ (t + 1) % HISTORY_SIZE = tp % HISTORY_SIZE := by
        rw [h50]
        rw [h50] at h2
        omega
      simp only [channelBuffer]
      rw [if_neg hne]
      exact ih tp htp (by omega)

/-- The C index expression of line 116 evaluates, under the window
bounds the orchestrator guarantees, to the ring position of the sample
written W - 1 - i ticks ago; the dividend is nonnegative, so the C
truncated remainder is the mathematical residue and the index is in
bounds. -/
theorem extractIdx_eq (t W i : ℕ) (hW50 : W ≤ HISTORY_SIZE)
    (hWt : W ≤ t + 1) (hi : i < W) :
    extractIdx (t % HISTORY_SIZE) W i =
        (((t - (W - 1 - i)) % HISTORY_SIZE : ℕ) : ℤ) ∧
      0 ≤ extractIdx (t % HISTORY_SIZE) W i ∧
        extractIdx (t % HISTORY_SIZE) W i < (HISTORY_SIZE : ℤ) := by
  have h50 : HISTORY_SIZE = 50 := rfl
  rw [h50] at hW50 ⊢
  unfold extractIdx
  rw [h50]
  have hD : (0:ℤ) ≤ ((t % 50 : ℕ) : ℤ) - (W : ℤ) + 1 + (i : ℤ) + (50 : ℕ) := by
    omega
  rw [Int.tmod_eq_emod hD (by norm_num)]
  refine ⟨?_, ?_, ?_⟩ <;> omega

/-- Claim C3 core: element i of the extracted curve is the sample
written W - 1 - i ticks before tick t. -/
theorem extractedCurve_eq (stream : ℕ → ℚ) (t W i : ℕ)
    (hW50 : W ≤ HISTORY_SIZE) (hWt : W ≤ t + 1) (hi : i < W) :
    extractedCurve stream t W i = stream (t - (W - 1 - i)) := by
  obtain ⟨hval, hnn, hlt⟩ := extractIdx_eq t W i hW50 hWt hi
  unfold extractedCurve
  rw [hval]
  rw [Int.toNat_natCast]
  exact channelBuffer_recent stream t (t - (W - 1 - i)) (by omega) (by omega)

/-! Concrete inputs used by the witnesses below. -/

/-- The concrete curve [1.0, 2.0, 3.0] of the spec's scenario. -/
def sampleCurveA : ℕ → ℚ := fun n => if n = 0 then 1 else if n = 1 then 2 else 3

/-- The concrete curve [1.0, 2.0, 5.0] of the spec's scenario. -/
def sampleCurveB : ℕ → ℚ := fun n => if n = 0 then 1 else if n = 1 then 2 else 5

/-- A table full of stale nonnegative garbage from a previous call. -/
def dirtyTable1 : ℕ → ℕ → ℚ := fun _ _ => 9

/-- A table full of stale negative garbage from a previous call. -/
def dirtyTable2 : ℕ → ℕ → ℚ := fun _ _ => -7

/-! Claim theorems. -/

/-- C1: for every pair of equal-length scalar curves of length W >= 1,
the Fréchet DP engine (region reset followed by the memoized recurrence,
whatever the shared table held before) returns cell (W-1, W-1) of the
table F defined in the spec with pointwise distance the absolute
difference. -/
theorem C1_engine_returns_spec_table (A B : ℕ → ℚ) (W : ℕ)
    (tbl : ℕ → ℕ → ℚ) (hW : 1 ≤ W) :
    discreteFrechetMemo A B W tbl = specTable A B (W - 1) (W - 1) := by
  rw [discreteFrechetMemo_eq_pure A B W tbl hW]
  exact frechetDP_eq_specTable A B (W - 1) (W - 1)

theorem C1_witness :
    1 ≤ 3 ∧
      discreteFrechetMemo sampleCurveA sampleCurveB 3 dirtyTable1 =
        specTable sampleCurveA sampleCurveB 2 2 :=
  ⟨by norm_num,
    C1_engine_returns_spec_table sampleCurveA sampleCurveB 3 dirtyTable1
      (by norm_num)⟩

/-- C2: the effective window length used for a distance computation,
i.e. the orchestrator's clamp (line 159) followed by the engine's clamp
(line 113), equals min(requestedW, FRECHET_WINDOW, samplesCount); it
never exceeds the table capacity or the history size, and requesting a
window of 50 with only 10 samples collected yields an effective window
of 10. -/
theorem C2_window_clamping :
    ∀ requestedW samplesCount : ℕ,
      effectiveWindow requestedW samplesCount =
          min requestedW (min FRECHET_WINDOW samplesCount) ∧
        effectiveWindow requestedW samplesCount ≤ FRECHET_WINDOW ∧
        effectiveWindow requestedW samplesCount ≤ HISTORY_SIZE ∧
        effectiveWindow 50 10 = 10 := by
  intro r n
  simp only [effectiveWindow, actualWindow, orchestratorWindow,
    FRECHET_WINDOW, HISTORY_SIZE]
  omega

/-- C3: with the effective window at most the buffer capacity and at
most the samples collected (tick t has t + 1 samples), element i of the
extracted curve is the sample written W - 1 - i ticks ago — so the
curve runs oldest (i = 0, written W - 1 ticks ago) to newest
(i = W - 1, the current sample) — and the ring index is computed by
modular arithmetic that is nonnegative and in bounds. -/
theorem C3_extracted_curve (stream : ℕ → ℚ) (t W i : ℕ)
    (hW50 : W ≤ HISTORY_SIZE) (hWt : W ≤ t + 1) (hi : i < W) :
    extractedCurve stream t W i = stream (t - (W - 1 - i)) ∧
      0 ≤ extractIdx (t % HISTORY_SIZE) W i ∧
        extractIdx (t % HISTORY_SIZE) W i < (HISTORY_SIZE : ℤ) :=
  ⟨extractedCurve_eq stream t W i hW50 hWt hi,
    (extractIdx_eq t W i hW50 hWt hi).2⟩

theorem C3_witness :
    3 ≤ HISTORY_SIZE ∧ 3 ≤ 4 + 1 ∧ 1 < 3 ∧
      (extractedCurve (fun n => (n : ℚ)) 4 3 1 =
          ((4 - (3 - 1 - 1) : ℕ) : ℚ) ∧
        0 ≤ extractIdx (4 % HISTORY_SIZE) 3 1 ∧
          extractIdx (4 % HISTORY_SIZE) 3 1 < (HISTORY_SIZE : ℤ)) :=
  ⟨by decide, by norm_num, by norm_num,
    C3_extracted_curve (fun n => (n : ℚ)) 4 3 1 (by decide) (by norm_num)
      (by norm_num)⟩

/-- C4: on a tick where the orchestrator's window is below 3, every
entry of the distance-result array is exactly 0.0 and the result does
not depend on the engine at all (the engine is not invoked). -/
theorem C4_low_data_short_circuit (engine : ℕ → ℕ → ℕ → ℚ) (dIdx : ℕ)
    (h : min FRECHET_WINDOW (min 20 (dIdx + 1)) < 3) :
    (∀ ch, calcDistances engine dIdx ch = 0) ∧
      ∀ engine2 : ℕ → ℕ → ℕ → ℚ,
        calcDistances engine dIdx = calcDistances engine2 dIdx := by
  constructor
  · intro ch
    simp only [calcDistances]
    rw [if_pos h]
  · intro engine2
    simp only [calcDistances]
    rw [if_pos h, if_pos h]

theorem C4_witness :
    min FRECHET_WINDOW (min 20 (0 + 1)) < 3 ∧
      ((∀ ch, calcDistances (fun _ _ _ => 7) 0 ch = 0) ∧
        ∀ engine2 : ℕ → ℕ → ℕ → ℚ,
          calcDistances (fun _ _ _ => 7) 0 = calcDistances engine2 0) :=
  ⟨by decide, C4_low_data_short_circuit (fun _ _ _ => 7) 0 (by decide)⟩

/-- C5 (evaluation at the failing input): the first HISTORY_SIZE = 50
samples are pushed on ticks 0 .. 49, and on tick 49 the count the
orchestrator uses, dataIndex + 1, indeed equals the capacity; but on
tick 50 the cursor has wrapped, the count used collapses to 1 (not the
capacity), the window falls to 1 < 3, and every distance entry is
zeroed — contradicting the claim that the count stays capped at the
capacity and the window never again falls below 3. -/
theorem C5_sample_count_wraps :
    sampleCountAtTick 49 = HISTORY_SIZE ∧
      sampleCountAtTick 50 = 1 ∧
      windowAtTick 50 < 3 ∧
      calcDistances (fun _ _ _ => 5) (dataIndexAtTick 50) = fun _ => (0 : ℚ) := by
  have h : dataIndexAtTick 50 = 0 := by decide
  refine ⟨by decide, ?_, ?_, ?_⟩
  · rw [sampleCountAtTick, h]
  · rw [windowAtTick, sampleCountAtTick, h]
    decide
  · rw [h]
    simp only [calcDistances]
    rw [if_pos (by decide : min FRECHET_WINDOW (min 20 (0 + 1)) < 3)]

/-- C6: the engine is symmetric in its two curves. -/
theorem C6_engine_symmetric (A B : ℕ → ℚ) (W : ℕ) (tbl : ℕ → ℕ → ℚ)
    (hW : 1 ≤ W) :
    discreteFrechetMemo A B W tbl = discreteFrechetMemo B A W tbl := by
  rw [discreteFrechetMemo_eq_pure A B W tbl hW,
    discreteFrechetMemo_eq_pure B A W tbl hW]
  exact frechetDP_symm A B (W - 1) (W - 1)

theorem C6_witness :
    1 ≤ 3 ∧
      discreteFrechetMemo sampleCurveA sampleCurveB 3 dirtyTable1 =
        discreteFrechetMemo sampleCurveB sampleCurveA 3 dirtyTable1 :=
  ⟨by norm_num,
    C6_engine_symmetric sampleCurveA sampleCurveB 3 dirtyTable1 (by norm_num)⟩

/-- C7: the engine applied to a curve and itself returns 0. -/
theorem C7_engine_identity (A : ℕ → ℚ) (W : ℕ) (tbl : ℕ → ℕ → ℚ)
    (hW : 1 ≤ W) :
    discreteFrechetMemo A A W tbl = 0 := by
  rw [discreteFrechetMemo_eq_pure A A W tbl hW]
  exact frechetDP_diag A (W - 1)

theorem C7_witness :
    1 ≤ 3 ∧ discreteFrechetMemo sampleCurveA sampleCurveA 3 dirtyTable2 = 0 :=
  ⟨by norm_num, C7_engine_identity sampleCurveA 3 dirtyTable2 (by norm_num)⟩

/-- C8: on A = [1.0, 2.0, 3.0], B = [1.0, 2.0, 5.0] with W = 3, the
engine returns exactly 2.0. -/
theorem C8_concrete_scenario :
    discreteFrechetMemo sampleCurveA sampleCurveB 3 (fun _ _ => -1) = 2 := by
  rw [discreteFrechetMemo_eq_pure sampleCurveA sampleCurveB 3 (fun _ _ => -1)
    (by norm_num)]
  norm_num [frechetDP, sampleCurveA, sampleCurveB, euclideanDistance]

/-- C9: the recursion of frechetDP is well founded: every recursive
call strictly decreases i + j, so an evaluator that spends one unit of
fuel per call completes on any fuel above i + j, returning the total
function's value. -/
theorem C9_termination (A B : ℕ → ℚ) (i j fuel : ℕ) (h : i + j < fuel) :
    (frechetFuel A B fuel i j).isSome = true ∧
      frechetFuel A B fuel i j = some (frechetDP A B i j) := by
  have he := frechetFuel_eq A B fuel i j h
  exact ⟨by rw [he]; rfl, he⟩

theorem C9_witness :
    2 + 2 < 5 ∧
      ((frechetFuel sampleCurveA sampleCurveB 5 2 2).isSome = true ∧
        frechetFuel sampleCurveA sampleCurveB 5 2 2 =
          some (frechetDP sampleCurveA sampleCurveB 2 2)) :=
  ⟨by norm_num, C9_termination sampleCurveA sampleCurveB 2 2 5 (by norm_num)⟩

/-- C10: the engine is deterministic despite the shared static table:
two invocations with equal curves and equal effective window W >= 1
return equal results whatever each one's table held beforehand, because
the active W-by-W region is reset to the -1.0 sentinel first. -/
theorem C10_deterministic (A B : ℕ → ℚ) (W : ℕ) (tbl1 tbl2 : ℕ → ℕ → ℚ)
    (hW : 1 ≤ W) :
    discreteFrechetMemo A B W tbl1 = discreteFrechetMemo A B W tbl2 := by
  rw [discreteFrechetMemo_eq_pure A B W tbl1 hW,
    discreteFrechetMemo_eq_pure A B W tbl2 hW]

theorem C10_witness :
    1 ≤ 3 ∧
      discreteFrechetMemo sampleCurveA sampleCurveB 3 dirtyTable1 =
        discreteFrechetMemo sampleCurveA sampleCurveB 3 dirtyTable2 :=
  ⟨by norm_num,
    C10_deterministic sampleCurveA sampleCurveB 3 dirtyTable1 dirtyTable2
      (by norm_num)⟩

end FrechetSpace
